import Mathlib

/-!
Verification of qdrant-up (src/qdrant-up/src/main.rs), a one-shot batch
ingestion pipeline: load points from a JSON file, normalize the endpoint URL,
configure the client, provision the target collection, and upsert the points
in fixed-size batches while reporting progress.

The embedding below translates the relevant parts of the source into Lean:
pure functions become Lean functions, the remote store is modelled as an
abstract collaborator (a failure oracle for upserts, a collection list for
provisioning), and a Rust process abort (panic) is modelled by the explicit
RunResult.crashed outcome. JSON numbers (f64/f32) are modelled as rationals;
no claim depends on floating-point semantics.
-/

namespace QdrantUp

/-- JSON values, modelling serde_json::Value. Numbers are modelled as
rationals (the source stores f32/f64; no claim depends on rounding). -/
inductive Json where
  | null
  | bool (b : Bool)
  | num (q : Rat)
  | str (s : String)
  | arr (elems : List Json)
  | obj (fields : List (String × Json))

/-- A parsed input record (struct Point, main.rs lines 59-64). -/
structure Point where
  id : String
  vector : List Rat
  payload : Json

/-- The parsed input file (struct InputData, main.rs lines 54-57). -/
structure InputData where
  points : List Point

/-- The store's payload document (qdrant_client::Payload): a key-value map. -/
structure Payload where
  fields : List (String × Json)

/-- Payload::try_from(serde_json::Value): succeeds exactly when the value is
a JSON object, otherwise errors (which line 142 then unwraps). -/
def Payload.tryFrom : Json → Option Payload
  | .obj kvs => some ⟨kvs⟩
  | _ => none

/-- An upsert record (qdrant PointStruct) built at lines 139-143. -/
structure PointStruct where
  id : String
  vector : List Rat
  payload : Payload

/-- Parse one vector component: serde requires a JSON number for f32. -/
def parseNum : Json → Option Rat
  | .num q => some q
  | _ => none

/-- Serde deserialization of struct Point: an object with a string "id",
an array-of-numbers "vector", and an arbitrary "payload" value. -/
def parsePoint : Json → Option Point
  | .obj kvs =>
    match kvs.lookup "id", kvs.lookup "vector", kvs.lookup "payload" with
    | some (.str i), some (.arr vs), some pl =>
      (vs.mapM parseNum).map fun v => ⟨i, v, pl⟩
    | _, _, _ => none
  | _ => none

/-- Serde deserialization of struct InputData: an object whose "points" field
is an array of point records (the Input Loader, main.rs lines 84-85). -/
def parseInput : Json → Option InputData
  | .obj kvs =>
    match kvs.lookup "points" with
    | some (.arr ps) => (ps.mapM parsePoint).map InputData.mk
    | _ => none
  | _ => none

/-- Fuel-indexed version of slice::chunks so the recursion is structural:
take B elements, recurse on the rest. The fuel is instantiated with the list
length, which suffices whenever B is at least 1 (each step drops B elements
of a nonempty list). -/
def chunksFuel (B : Nat) : Nat → List α → List (List α)
  | 0, _ => []
  | _ + 1, [] => []
  | fuel + 1, x :: xs => (x :: xs).take B :: chunksFuel B fuel ((x :: xs).drop B)

/-- data.points.chunks(args.batch_size) at line 135: contiguous chunks of at
most B elements, in order, the last one possibly smaller. -/
def chunks (B : Nat) (l : List α) : List (List α) := chunksFuel B l.length l

/-- Line 133: let total_batches = (data.points.len() + args.batch_size - 1)
/ args.batch_size (usize arithmetic; meaningful only for B at least 1 --
with B = 0 the real program panics before this value is ever used, which
runUpsert models). -/
def total_batches (N B : Nat) : Nat := (N + B - 1) / B

/-- Spec-side ceiling division, written from the spec's words: "total batch
count = ceil(N/B)". Used only to compare against total_batches. -/
def ceilDiv (N B : Nat) : Nat := if N % B = 0 then N / B else N / B + 1

/-- Structured outputs of the run: one progress line per upserted batch
(line 152: 1-based batch index, total batch count, point count of the batch)
and the terminal done line (line 160: total point count). -/
inductive Event where
  | progress (batch : Nat) (total : Nat) (points : Nat)
  | done (totalPoints : Nat)
deriving DecidableEq, BEq

/-- Terminal outcome of the upsert phase: clean success, the anyhow error
with context "Failed to upsert batch {batch_idx}" (line 150; note the code
formats the 0-based batch_idx), or a process abort (Rust panic). -/
inductive RunResult where
  | ok
  | upsertError (batchIdx : Nat)
  | crashed
deriving DecidableEq, BEq

/-- Whether a run result is the upsert error (used to state that a crash is
not surfaced as any declared error kind). -/
def RunResult.isUpsertError : RunResult → Bool
  | .upsertError _ => true
  | _ => false

/-- Observable outcome of the upsert phase: emitted events in order, the
0-based indices of upsert calls actually issued, and the terminal result. -/
structure RunOut where
  events : List Event
  calls : List Nat
  result : RunResult
deriving DecidableEq, BEq

/-- Lines 136-145: build the PointStruct batch for one chunk. Returns none
when Payload::try_from(p.payload.clone()).unwrap() panics, i.e. when some
payload in the chunk is not a JSON object. -/
def buildBatch : List Point → Option (List PointStruct)
  | [] => some []
  | p :: rest =>
    match Payload.tryFrom p.payload with
    | none => none
    | some pl => (buildBatch rest).map fun l => ⟨p.id, p.vector, pl⟩ :: l

/-- The loop body of lines 135-158 over the remaining chunks, carrying the
0-based index of the current chunk. fail is the store collaborator: fail i
says whether the upsert call for 0-based batch i errors. Per iteration the
code first builds the batch (possible panic), then issues the upsert call
(possible error, which short-circuits via ?), then prints the progress line. -/
def loopGo (fail : Nat → Bool) (total : Nat) : List (List Point) → Nat → RunOut
  | [], _ => ⟨[], [], .ok⟩
  | chunk :: rest, idx =>
    match buildBatch chunk with
    | none => ⟨[], [], .crashed⟩
    | some _ =>
      if fail idx then ⟨[], [idx], .upsertError idx⟩
      else
        let o := loopGo fail total rest (idx + 1)
        ⟨.progress (idx + 1) total chunk.length :: o.events, idx :: o.calls, o.result⟩

/-- Lines 133-161: the Batch Upsert Engine. With B = 0 the program panics at
line 133 (the usize expression (N + 0 - 1) / 0 divides by zero; in debug
builds with N = 0 the subtraction already overflows) before the loop, so no
event is emitted and no call is issued. Otherwise the chunk loop runs and,
on clean completion, the terminal done line is printed (line 160). -/
def runUpsert (fail : Nat → Bool) (pts : List Point) (B : Nat) : RunOut :=
  if B = 0 then ⟨[], [], .crashed⟩
  else
    let o := loopGo fail (total_batches pts.length B) (chunks B pts) 0
    match o.result with
    | .ok => ⟨o.events ++ [.done pts.length], o.calls, .ok⟩
    | .upsertError j => ⟨o.events, o.calls, .upsertError j⟩
    | .crashed => ⟨o.events, o.calls, .crashed⟩

/-- The progress events a fully successful traversal of the given chunks
emits, starting at 0-based chunk index idx (specification vocabulary used to
state the loop lemmas). -/
def successEvents (total : Nat) : List (List Point) → Nat → List Event
  | [], _ => []
  | c :: rest, idx => .progress (idx + 1) total c.length :: successEvents total rest (idx + 1)

/-- Extract the point count of a progress event. -/
def progressPoints : Event → Option Nat
  | .progress _ _ k => some k
  | .done _ => none

/-- Extract the batch index and total of a progress event. -/
def progressIdxTotal : Event → Option (Nat × Nat)
  | .progress b t _ => some (b, t)
  | .done _ => none

/-- The --compression argument (enum CompressionArg, lines 14-20). -/
inductive CompressionArg where
  | none
  | gzip
  | zstd
  | lz4
deriving DecidableEq

/-- Transport compression actually supported by the client config: only gzip
(qdrant_client::config::CompressionEncoding). -/
inductive CompressionEncoding where
  | gzip
deriving DecidableEq

/-- Result of the compression match: the client compression setting and the
warning lines printed to the diagnostic channel. -/
structure CompressionChoice where
  compression : Option CompressionEncoding
  warnings : List String
deriving DecidableEq

/-- Lines 101-114: the match on args.compression. zstd and lz4 substitute
gzip and print a warning; none leaves compression unset; gzip sets gzip. -/
def configureCompression : CompressionArg → CompressionChoice
  | .none => ⟨Option.none, []⟩
  | .gzip => ⟨some .gzip, []⟩
  | .zstd => ⟨some .gzip, ["Warning: Zstd compression not available, using Gzip"]⟩
  | .lz4 => ⟨some .gzip, ["Warning: LZ4 compression not directly supported, using Gzip"]⟩

/-- Distance metric used at creation (line 126 passes Distance::Cosine). -/
inductive Distance where
  | cosine
deriving DecidableEq

/-- A collection in the remote store, with the configuration it was created
with. -/
structure Collection where
  name : String
  dims : Nat
  dist : Distance
deriving DecidableEq

/-- Abstract state of the remote store for provisioning purposes. -/
structure Store where
  collections : List Collection
deriving DecidableEq

/-- A creation request issued to the store (lines 123-130). -/
structure CreateCall where
  name : String
  dims : Nat
  dist : Distance
deriving DecidableEq

/-- client.collection_exists(&args.collection) at line 120: existence is by
name only; the stored configuration is not inspected. -/
def collection_exists (st : Store) (n : String) : Bool :=
  st.collections.any fun c => c.name == n

/-- client.create_collection(...) at lines 123-130: adds a collection with
the given configuration. -/
def create_collection (st : Store) (n : String) (dims : Nat) (dist : Distance) : Store :=
  ⟨⟨n, dims, dist⟩ :: st.collections⟩

/-- Lines 120-131: the Collection Provisioner. Returns the resulting store
state and the list of creation calls issued. -/
def provision (st : Store) (n : String) (dims : Nat) : Store × List CreateCall :=
  if collection_exists st n then (st, [])
  else (create_collection st n dims .cosine, [⟨n, dims, .cosine⟩])

/-- Model of a parsed URL with the components the claims mention. The port
field is the explicit port as exposed by url::Url::port(). -/
structure Url where
  scheme : String
  host : Option String
  port : Option Nat
  path : String
deriving DecidableEq

/-- url::Url::set_port: errs when the URL cannot carry a port (no host, e.g.
a cannot-be-a-base URL, or the file scheme); otherwise replaces the port. -/
def Url.setPortOpt (u : Url) (p : Option Nat) : Option Url :=
  if u.host = Option.none ∨ u.scheme = "file" then Option.none
  else some { u with port := p }

/-- The InvalidEndpoint failure of the Endpoint Normalizer, carrying the
anyhow context message. -/
inductive EndpointError where
  | invalidEndpoint (msg : String)
deriving DecidableEq

/-- Lines 66-75: fn ensure_grpc_port, parametric in the URL parser (the
external url crate): parse, and if no explicit port is present set 6334;
parse failure gets context "Invalid URL", set_port failure becomes the
"Failed to set port" error. The canonical serialization to_string of the
resulting URL is left implicit: the returned Url value is the result up to
canonical formatting. -/
def ensure_grpc_port (parse : String → Option Url) (s : String) : Except EndpointError Url :=
  match parse s with
  | Option.none => .error (.invalidEndpoint "Invalid URL")
  | some u =>
    if u.port.isNone then
      match u.setPortOpt (some 6334) with
      | Option.none => .error (.invalidEndpoint "Failed to set port")
      | some u2 => .ok u2
    else .ok u

/-- A point with an object payload, for concrete runs. -/
def mkPt (s : String) : Point := ⟨s, [], Json.obj []⟩

/-- Five points with object payloads (concrete input for witnesses). -/
def ptsW : List Point := [mkPt "a", mkPt "b", mkPt "c", mkPt "d", mkPt "e"]

/-- Four points with object payloads. -/
def pts4 : List Point := [mkPt "a", mkPt "b", mkPt "c", mkPt "d"]

/-- Three points with object payloads. -/
def pts3 : List Point := [mkPt "a", mkPt "b", mkPt "c"]

/-- A store behavior under which exactly the second upsert call (0-based
index 1) fails. -/
def failW : Nat → Bool := fun i => i == 1

/-- A concrete URL parser covering the three normalization scenarios. -/
def parseW : String → Option Url := fun s =>
  if s = "https://example.com" then some ⟨"https", some "example.com", Option.none, "/"⟩
  else if s = "https://example.com:1234" then some ⟨"https", some "example.com", some 1234, "/"⟩
  else Option.none

/-- A store already holding the default collection. -/
def storeW : Store := ⟨[⟨"documents", 768, .cosine⟩]⟩

/-- The empty store. -/
def storeEmpty : Store := ⟨[]⟩

/-- An input document the Input Loader accepts whose single point carries a
non-object payload (a bare string). -/
def badPayloadDoc : Json :=
  .obj [("points", .arr [.obj [("id", .str "a"), ("vector", .arr [.num 1]), ("payload", .str "not an object")]])]

/-- The point the Input Loader produces from badPayloadDoc. -/
def badPayloadPoint : Point := ⟨"a", [1], .str "not an object"⟩

/-- chunksFuel does not depend on the exact fuel, as long as the fuel covers
the list length. -/
theorem chunksFuel_congr {B : Nat} (hB : 0 < B) :
    ∀ (n m : Nat) (l : List α), l.length ≤ n → l.length ≤ m →
      chunksFuel B n l = chunksFuel B m l := by
  intro n
  induction n with
  | zero =>
    intro m l hn _
    have hl : l = [] := List.eq_nil_of_length_eq_zero (Nat.le_zero.mp hn)
    subst hl
    cases m with
    | zero => rfl
    | succ m => rfl
  | succ n ih =>
    intro m l hn hm
    cases l with
    | nil =>
      cases m with
      | zero => rfl
      | succ m => rfl
    | cons x xs =>
      cases m with
      | zero =>
        exact absurd hm (by simp)
      | succ m =>
        show (x :: xs).take B :: chunksFuel B n ((x :: xs).drop B)
            = (x :: xs).take B :: chunksFuel B m ((x :: xs).drop B)
        congr 1
        refine ih m ((x :: xs).drop B) ?_ ?_
        · rw [List.length_drop]
          simp only [List.length_cons] at hn ⊢
          omega
        · rw [List.length_drop]
          simp only [List.length_cons] at hm ⊢
          omega

/-- Unfolding equation of chunks on a nonempty list. -/
theorem chunks_cons {B : Nat} (hB : 0 < B) (x : α) (xs : List α) :
    chunks B (x :: xs) = (x :: xs).take B :: chunks B ((x :: xs).drop B) := by
  show chunksFuel B (xs.length + 1) (x :: xs) = _
  show (x :: xs).take B :: chunksFuel B xs.length ((x :: xs).drop B)
      = (x :: xs).take B :: chunksFuel B ((x :: xs).drop B).length ((x :: xs).drop B)
  congr 1
  refine chunksFuel_congr hB xs.length _ ((x :: xs).drop B) ?_ le_rfl
  rw [List.length_drop]
  simp only [List.length_cons]
  omega

/-- chunks of a nonempty list is nonempty. -/
theorem chunks_ne_nil {B : Nat} (hB : 0 < B) (l : List α) (hl : l ≠ []) :
    chunks B l ≠ [] := by
  match l with
  | [] => exact absurd rfl hl
  | x :: xs =>
    rw [chunks_cons hB]
    exact List.cons_ne_nil _ _

/-- Concatenating the chunks gives back the list: the chunks are contiguous,
non-overlapping and in input order. -/
theorem chunks_flatten {B : Nat} (hB : 0 < B) (l : List α) :
    (chunks B l).flatten = l := by
  suffices H : ∀ (n : Nat) (l : List α), l.length ≤ n → (chunks B l).flatten = l from
    H l.length l le_rfl
  intro n
  induction n with
  | zero =>
    intro l hl
    have h0 : l = [] := List.eq_nil_of_length_eq_zero (Nat.le_zero.mp hl)
    subst h0
    rfl
  | succ n ih =>
    intro l hl
    match l with
    | [] => rfl
    | x :: xs =>
      rw [chunks_cons hB, List.flatten_cons, ih ((x :: xs).drop B) ?_, List.take_append_drop]
      rw [List.length_drop]
      simp only [List.length_cons] at hl ⊢
      omega

/-- Arithmetic step for the chunk count: removing one full chunk from a
nonempty list decreases the ceiling count by one. -/
theorem ceil_step {B n : Nat} (hB : 0 < B) (hn : 0 < n) :
    (n - B + B - 1) / B + 1 = (n + B - 1) / B := by
  rcases le_or_lt n B with h | h
  · have h0 : n - B + B - 1 = B - 1 := by omega
    have h1 : n + B - 1 = (n - 1) + B := by omega
    rw [h0, h1, Nat.add_div_right _ hB, Nat.div_eq_of_lt (by omega),
      Nat.div_eq_of_lt (by omega)]
  · have h1 : n - B + B - 1 = n - 1 := by omega
    have h2 : n + B - 1 = (n - 1) + B := by omega
    rw [h1, h2, Nat.add_div_right _ hB]

/-- The number of chunks equals the total batch count the code computes at
line 133. -/
theorem chunks_length {B : Nat} (hB : 0 < B) (l : List α) :
    (chunks B l).length = total_batches l.length B := by
  suffices H : ∀ (n : Nat) (l : List α), l.length ≤ n →
      (chunks B l).length = total_batches l.length B from H l.length l le_rfl
  intro n
  induction n with
  | zero =>
    intro l hl
    have h0 : l = [] := List.eq_nil_of_length_eq_zero (Nat.le_zero.mp hl)
    subst h0
    show 0 = (0 + B - 1) / B
    rw [Nat.zero_add, Nat.div_eq_of_lt (by omega)]
  | succ n ih =>
    intro l hl
    match l with
    | [] =>
      show 0 = (0 + B - 1) / B
      rw [Nat.zero_add, Nat.div_eq_of_lt (by omega)]
    | x :: xs =>
      rw [chunks_cons hB, List.length_cons, ih ((x :: xs).drop B) ?_]
      · show total_batches ((x :: xs).drop B).length B + 1 = total_batches (x :: xs).length B
        unfold total_batches
        rw [List.length_drop]
        exact ceil_step hB (by simp)
      · rw [List.length_drop]
        simp only [List.length_cons] at hl ⊢
        omega

/-- Every chunk has at most B elements. -/
theorem chunks_mem_length_le {B : Nat} (hB : 0 < B) {l : List α} :
    ∀ c ∈ chunks B l, c.length ≤ B := by
  suffices H : ∀ (n : Nat) (l : List α), l.length ≤ n → ∀ c ∈ chunks B l, c.length ≤ B from
    H l.length l le_rfl
  intro n
  induction n with
  | zero =>
    intro l hl c hc
    have h0 : l = [] := List.eq_nil_of_length_eq_zero (Nat.le_zero.mp hl)
    subst h0
    simp [chunks, chunksFuel] at hc
  | succ n ih =>
    intro l hl c hc
    match l with
    | [] => simp [chunks, chunksFuel] at hc
    | x :: xs =>
      rw [chunks_cons hB] at hc
      rcases List.mem_cons.mp hc with h | h
      · subst h
        rw [List.length_take]
        exact Nat.le_trans (Nat.min_le_left _ _) le_rfl
      · refine ih ((x :: xs).drop B) ?_ c h
        rw [List.length_drop]
        simp only [List.length_cons] at hl ⊢
        omega

/-- Every chunk except possibly the final one has exactly B elements. -/
theorem chunks_dropLast_length {B : Nat} (hB : 0 < B) {l : List α} :
    ∀ c ∈ (chunks B l).dropLast, c.length = B := by
  suffices H : ∀ (n : Nat) (l : List α), l.length ≤ n →
      ∀ c ∈ (chunks B l).dropLast, c.length = B from H l.length l le_rfl
  intro n
  induction n with
  | zero =>
    intro l hl c hc
    have h0 : l = [] := List.eq_nil_of_length_eq_zero (Nat.le_zero.mp hl)
    subst h0
    simp [chunks, chunksFuel] at hc
  | succ n ih =>
    intro l hl c hc
    match l with
    | [] => simp [chunks, chunksFuel] at hc
    | x :: xs =>
      rw [chunks_cons hB] at hc
      rcases hrest : chunks B ((x :: xs).drop B) with _ | ⟨r, rs⟩
      · rw [hrest] at hc
        simp at hc
      · rw [hrest] at hc
        rw [show ((x :: xs).take B :: r :: rs).dropLast
            = (x :: xs).take B :: (r :: rs).dropLast from rfl] at hc
        have hdrop : (x :: xs).drop B ≠ [] := by
          intro h0
          rw [h0] at hrest
          simp [chunks, chunksFuel] at hrest
        rcases List.mem_cons.mp hc with h | h
        · subst h
          have hlen : B < (x :: xs).length := by
            by_contra hle
            push_neg at hle
            exact hdrop (List.drop_eq_nil_iff.mpr hle)
          rw [List.length_take]
          omega
        · refine ih ((x :: xs).drop B) ?_ c (by rw [hrest]; exact h)
          rw [List.length_drop]
          simp only [List.length_cons] at hl ⊢
          omega

/-- The final chunk of a nonempty list has N mod B elements, or B when B
divides N. -/
theorem chunks_getLast {B : Nat} (hB : 0 < B) :
    ∀ (l : List α), l ≠ [] →
      (chunks B l).getLast?.map List.length
        = some (if l.length % B = 0 then B else l.length % B) := by
  suffices H : ∀ (n : Nat) (l : List α), l.length ≤ n → l ≠ [] →
      (chunks B l).getLast?.map List.length
        = some (if l.length % B = 0 then B else l.length % B) from
    fun l => H l.length l le_rfl
  intro n
  induction n with
  | zero =>
    intro l hl hne
    exact absurd (List.eq_nil_of_length_eq_zero (Nat.le_zero.mp hl)) hne
  | succ n ih =>
    intro l hl hne
    match l with
    | [] => exact absurd rfl hne
    | x :: xs =>
      rw [chunks_cons hB]
      rcases hrest : chunks B ((x :: xs).drop B) with _ | ⟨r, rs⟩
      · have hlen : (x :: xs).length ≤ B := by
          by_contra hgt
          push_neg at hgt
          have hdrop : (x :: xs).drop B ≠ [] := by
            intro h0
            have := List.drop_eq_nil_iff.mp h0
            omega
          exact chunks_ne_nil hB _ hdrop hrest
        rw [List.getLast?_singleton, Option.map_some']
        have htake : ((x :: xs).take B).length = (x :: xs).length := by
          rw [List.length_take]
          omega
        rw [htake]
        rcases Nat.lt_or_ge (x :: xs).length B with hlt | hge
        · rw [Nat.mod_eq_of_lt hlt, if_neg (by simp)]
        · have heq : (x :: xs).length = B := Nat.le_antisymm hlen hge
          rw [heq, Nat.mod_self, if_pos rfl]
      · have hdrop : (x :: xs).drop B ≠ [] := by
          intro h0
          rw [h0] at hrest
          exact List.cons_ne_nil r rs (by simpa [chunks, chunksFuel] using hrest.symm)
        have hBlt : B < (x :: xs).length := by
          by_contra hle
          push_neg at hle
          exact hdrop (List.drop_eq_nil_iff.mpr hle)
        rw [List.getLast?_cons_cons, ← hrest]
        rw [ih ((x :: xs).drop B) ?_ hdrop]
        · have hmod : (x :: xs).length % B = ((x :: xs).drop B).length % B := by
            rw [List.length_drop]
            conv_lhs => rw [show (x :: xs).length = ((x :: xs).length - B) + B by omega]
            rw [Nat.add_mod_right]
          rw [hmod]
        · rw [List.length_drop]
          simp only [List.length_cons] at hl ⊢
          omega

/-- Every element of a chunk is an element of the original list. -/
theorem mem_chunks_mem {B : Nat} (hB : 0 < B) {l : List α} {c : List α}
    (hc : c ∈ chunks B l) {p : α} (hp : p ∈ c) : p ∈ l := by
  have h2 : p ∈ (chunks B l).flatten := List.mem_flatten.mpr ⟨c, hc, hp⟩
  rwa [chunks_flatten hB] at h2

/-- The computed total batch count is exactly ceiling division. -/
theorem total_batches_eq_ceilDiv {B : Nat} (hB : 0 < B) (N : Nat) :
    total_batches N B = ceilDiv N B := by
  unfold total_batches ceilDiv
  have hmod : N % B < B := Nat.mod_lt N hB
  have hdm : B * (N / B) + N % B = N := Nat.div_add_mod N B
  by_cases hr : N % B = 0
  · rw [if_pos hr]
    have hN : N + B - 1 = B * (N / B) + (B - 1) := by omega
    rw [hN, Nat.mul_add_div hB]
    have h1 : (B - 1) / B = 0 := Nat.div_eq_of_lt (by omega)
    rw [h1, Nat.add_zero]
  · rw [if_neg hr]
    have hN : N + B - 1 = B * (N / B) + (N % B + B - 1) := by omega
    rw [hN, Nat.mul_add_div hB]
    have h2 : N % B + B - 1 = (N % B - 1) + B := by omega
    rw [h2, Nat.add_div_right _ hB]
    have h3 : (N % B - 1) / B = 0 := Nat.div_eq_of_lt (by omega)
    rw [h3, Nat.zero_add]

/-- If every payload in a chunk is a JSON object, building the batch does
not panic. -/
theorem buildBatch_isSome {c : List Point}
    (hc : ∀ p ∈ c, (Payload.tryFrom p.payload).isSome = true) :
    (buildBatch c).isSome = true := by
  induction c with
  | nil => rfl
  | cons p rest ih =>
    obtain ⟨pl, hpl⟩ := Option.isSome_iff_exists.mp (hc p (by simp))
    obtain ⟨l, hl⟩ := Option.isSome_iff_exists.mp (ih fun q hq => hc q (by simp [hq]))
    simp [buildBatch, hpl, hl]

/-- Unfolding a range map by one: the image of 0 comes first. -/
theorem range_succ_map {β : Type} (f : Nat → β) (n : Nat) :
    (List.range (n + 1)).map f = f 0 :: (List.range n).map (fun k => f (k + 1)) := by
  rw [List.range_succ_eq_map, List.map_cons, List.map_map]
  rfl

/-- When every payload converts and no relevant upsert call fails, the loop
completes cleanly, emitting one progress event per chunk and issuing one
upsert call per chunk. -/
theorem loopGo_success (fail : Nat → Bool) (total : Nat) :
    ∀ (cs : List (List Point)) (idx : Nat),
      (∀ c ∈ cs, (buildBatch c).isSome = true) →
      (∀ i, i < cs.length → fail (idx + i) = false) →
      loopGo fail total cs idx =
        ⟨successEvents total cs idx, (List.range cs.length).map (fun k => idx + k), .ok⟩ := by
  intro cs
  induction cs with
  | nil =>
    intro idx _ _
    rfl
  | cons c rest ih =>
    intro idx hb hf
    obtain ⟨ps, hps⟩ := Option.isSome_iff_exists.mp (hb c (by simp))
    have hf0 : fail idx = false := by
      have := hf 0 (by simp)
      simpa using this
    have hrec := ih (idx + 1) (fun d hd => hb d (by simp [hd])) ?_
    · show (match buildBatch c with
        | none => (⟨[], [], .crashed⟩ : RunOut)
        | some _ =>
          if fail idx then ⟨[], [idx], .upsertError idx⟩
          else
            let o := loopGo fail total rest (idx + 1)
            ⟨.progress (idx + 1) total c.length :: o.events, idx :: o.calls, o.result⟩) = _
      rw [hps, if_neg (by simp [hf0]), hrec]
      show (⟨Event.progress (idx + 1) total c.length :: successEvents total rest (idx + 1),
          idx :: (List.range rest.length).map (fun k => (idx + 1) + k), .ok⟩ : RunOut) = _
      rw [List.length_cons, range_succ_map (fun k => idx + k) rest.length]
      have he : (fun k => idx + (k + 1)) = (fun k => (idx + 1) + k) :=
        funext fun k => by omega
      rw [he, Nat.add_zero]
      rfl
    · intro i hi
      have := hf (i + 1) (by simp; omega)
      have harr : idx + (i + 1) = (idx + 1) + i := by omega
      rwa [harr] at this

/-- When every payload converts, the first j calls succeed and call j fails
(all indices relative to the loop's starting index), the loop stops at call
j: it emits progress events only for the j chunks before the failing one,
issues calls 0..j, and surfaces the upsert error carrying the 0-based index
of the failing call. -/
theorem loopGo_fail (fail : Nat → Bool) (total : Nat) :
    ∀ (cs : List (List Point)) (idx j : Nat),
      (∀ c ∈ cs, (buildBatch c).isSome = true) →
      j < cs.length →
      (∀ i, i < j → fail (idx + i) = false) →
      fail (idx + j) = true →
      loopGo fail total cs idx =
        ⟨successEvents total (cs.take j) idx,
         (List.range (j + 1)).map (fun k => idx + k),
         .upsertError (idx + j)⟩ := by
  intro cs
  induction cs with
  | nil =>
    intro idx j _ hj _ _
    simp at hj
  | cons c rest ih =>
    intro idx j hb hj hlt hfj
    obtain ⟨ps, hps⟩ := Option.isSome_iff_exists.mp (hb c (by simp))
    match j with
    | 0 =>
      have hft : fail idx = true := by simpa using hfj
      show (match buildBatch c with
        | none => (⟨[], [], .crashed⟩ : RunOut)
        | some _ =>
          if fail idx then ⟨[], [idx], .upsertError idx⟩
          else
            let o := loopGo fail total rest (idx + 1)
            ⟨.progress (idx + 1) total c.length :: o.events, idx :: o.calls, o.result⟩) = _
      rw [hps, if_pos (by simp [hft])]
      show (⟨[], [idx], .upsertError idx⟩ : RunOut)
          = ⟨successEvents total [] idx, [idx + 0], .upsertError (idx + 0)⟩
      rw [Nat.add_zero]
      rfl
    | j' + 1 =>
      have hf0 : fail idx = false := by simpa using hlt 0 (Nat.succ_pos j')
      have hrec := ih (idx + 1) j' (fun d hd => hb d (by simp [hd]))
        (by simp at hj; omega) ?_ ?_
      · show (match buildBatch c with
          | none => (⟨[], [], .crashed⟩ : RunOut)
          | some _ =>
            if fail idx then ⟨[], [idx], .upsertError idx⟩
            else
              let o := loopGo fail total rest (idx + 1)
              ⟨.progress (idx + 1) total c.length :: o.events, idx :: o.calls, o.result⟩) = _
        rw [hps, if_neg (by simp [hf0]), hrec]
        show (⟨Event.progress (idx + 1) total c.length :: successEvents total (rest.take j') (idx + 1),
            idx :: (List.range (j' + 1)).map (fun k => (idx + 1) + k),
            .upsertError ((idx + 1) + j')⟩ : RunOut) = _
        rw [List.take_succ_cons]
        rw [range_succ_map (fun k => idx + k) (j' + 1)]
        have he : (fun k => idx + (k + 1)) = (fun k => (idx + 1) + k) :=
          funext fun k => by omega
        rw [he, Nat.add_zero]
        have ha : (idx + 1) + j' = idx + (j' + 1) := by omega
        rw [ha]
        rfl
      · intro i hi
        have := hlt (i + 1) (by omega)
        have harr : idx + (i + 1) = (idx + 1) + i := by omega
        rwa [harr] at this
      · have harr : idx + (j' + 1) = (idx + 1) + j' := by omega
        rwa [harr] at hfj

/-- The point counts of the progress events of a clean traversal are the
chunk sizes, in order. -/
theorem successEvents_filterMap_points (total : Nat) :
    ∀ (cs : List (List Point)) (idx : Nat),
      (successEvents total cs idx).filterMap progressPoints = cs.map List.length := by
  intro cs
  induction cs with
  | nil => intro idx; rfl
  | cons c rest ih =>
    intro idx
    show (Event.progress (idx + 1) total c.length :: successEvents total rest (idx + 1)).filterMap
        progressPoints = _
    rw [List.filterMap_cons]
    show c.length :: (successEvents total rest (idx + 1)).filterMap progressPoints = _
    rw [ih (idx + 1)]
    rfl

/-- The batch indices and totals of the progress events of a clean traversal
starting at idx are idx+1, idx+2, ..., each with the same total. -/
theorem successEvents_filterMap_idx (total : Nat) :
    ∀ (cs : List (List Point)) (idx : Nat),
      (successEvents total cs idx).filterMap progressIdxTotal
        = (List.range cs.length).map (fun k => (idx + k + 1, total)) := by
  intro cs
  induction cs with
  | nil => intro idx; rfl
  | cons c rest ih =>
    intro idx
    show (Event.progress (idx + 1) total c.length :: successEvents total rest (idx + 1)).filterMap
        progressIdxTotal = _
    rw [List.filterMap_cons]
    show (idx + 1, total) :: (successEvents total rest (idx + 1)).filterMap progressIdxTotal = _
    rw [ih (idx + 1), List.length_cons, range_succ_map (fun k => (idx + k + 1, total)) rest.length]
    have he : (fun k => (idx + (k + 1) + 1, total)) = (fun k => ((idx + 1) + k + 1, total)) :=
      funext fun k => congrArg (·, total) (by omega)
    rw [he, Nat.add_zero]

/-- Every progress event of a clean traversal has a batch index between
idx+1 and idx plus the number of chunks. -/
theorem successEvents_progress_mem (total : Nat) :
    ∀ (cs : List (List Point)) (idx b t k : Nat),
      Event.progress b t k ∈ successEvents total cs idx → idx + 1 ≤ b ∧ b ≤ idx + cs.length := by
  intro cs
  induction cs with
  | nil =>
    intro idx b t k h
    simp [successEvents] at h
  | cons c rest ih =>
    intro idx b t k h
    rcases List.mem_cons.mp h with h | h
    · have hb : b = idx + 1 := by
        injection h
      subst hb
      simp only [List.length_cons]
      omega
    · have := ih (idx + 1) b t k h
      simp only [List.length_cons]
      omega

/-- A clean traversal never emits the terminal done line. -/
theorem successEvents_no_done (total : Nat) :
    ∀ (cs : List (List Point)) (idx m : Nat), Event.done m ∉ successEvents total cs idx := by
  intro cs
  induction cs with
  | nil =>
    intro idx m h
    simp [successEvents] at h
  | cons c rest ih =>
    intro idx m h
    rcases List.mem_cons.mp h with h | h
    · exact Event.noConfusion h
    · exact ih (idx + 1) m h

/-- Claim C1: for every input dataset with N points and batch size B at
least 1, the upsert loop partitions the points into contiguous,
non-overlapping, input-order chunks of at most B points with only the final
chunk possibly smaller; the computed total batch count equals ceil(N/B) and
the number of chunks; on a fully successful run the per-batch point counts
reported in the progress events sum to N; the last batch has N mod B points
(or B when B divides N), and N = 0 yields zero batches. -/
theorem c1_batch_partition (pts : List Point) (B : Nat) (hB : 0 < B)
    (hp : ∀ p ∈ pts, (Payload.tryFrom p.payload).isSome = true) :
    (chunks B pts).flatten = pts ∧
    (∀ c ∈ chunks B pts, c.length ≤ B) ∧
    (∀ c ∈ (chunks B pts).dropLast, c.length = B) ∧
    (chunks B pts).length = total_batches pts.length B ∧
    total_batches pts.length B = ceilDiv pts.length B ∧
    ((runUpsert (fun _ => false) pts B).events.filterMap progressPoints).sum = pts.length ∧
    (pts ≠ [] → (chunks B pts).getLast?.map List.length
        = some (if pts.length % B = 0 then B else pts.length % B)) ∧
    (pts = [] → chunks B pts = []) := by
  have hB0 : B ≠ 0 := Nat.pos_iff_ne_zero.mp hB
  have hb : ∀ c ∈ chunks B pts, (buildBatch c).isSome = true :=
    fun c hc => buildBatch_isSome fun p hpc => hp p (mem_chunks_mem hB hc hpc)
  have hf : ∀ i, i < (chunks B pts).length → (fun _ : Nat => false) (0 + i) = false :=
    fun i _ => rfl
  have hrun : runUpsert (fun _ => false) pts B
      = ⟨successEvents (total_batches pts.length B) (chunks B pts) 0 ++ [.done pts.length],
         (List.range (chunks B pts).length).map (fun k => 0 + k), .ok⟩ := by
    unfold runUpsert
    rw [if_neg hB0, loopGo_success (fun _ => false) _ (chunks B pts) 0 hb hf]
  refine ⟨chunks_flatten hB pts, chunks_mem_length_le hB, chunks_dropLast_length hB,
    chunks_length hB pts, total_batches_eq_ceilDiv hB pts.length, ?_,
    fun hne => chunks_getLast hB pts hne, ?_⟩
  · rw [hrun]
    show ((successEvents (total_batches pts.length B) (chunks B pts) 0
        ++ [Event.done pts.length]).filterMap progressPoints).sum = pts.length
    rw [List.filterMap_append, successEvents_filterMap_points]
    show ((chunks B pts).map List.length ++ []).sum = pts.length
    rw [List.append_nil, ← List.length_flatten, chunks_flatten hB]
  · intro h0
    subst h0
    rfl

/-- Claim C1 witness at a concrete input: five points uploaded with batch
size 2 (chunks of 2, 2, 1). -/
theorem c1_batch_partition_witness :
    (chunks 2 ptsW).flatten = ptsW ∧
    (chunks 2 ptsW).length = total_batches ptsW.length 2 ∧
    total_batches ptsW.length 2 = ceilDiv ptsW.length 2 ∧
    ((runUpsert (fun _ => false) ptsW 2).events.filterMap progressPoints).sum = ptsW.length ∧
    (chunks 2 ptsW).getLast?.map List.length
      = some (if ptsW.length % 2 = 0 then 2 else ptsW.length % 2) := by
  have h := c1_batch_partition ptsW 2 (by decide) (by decide)
  exact ⟨h.1, h.2.2.2.1, h.2.2.2.2.1, h.2.2.2.2.2.1,
    h.2.2.2.2.2.2.1 (by unfold ptsW; exact List.cons_ne_nil _ _)⟩

/-- Claim C2, amended: a batch size of 0 is not rejected with an error
before the loop; instead the total-batch computation of line 133 is reached
and executed with batch size 0 and the process aborts with an arithmetic
panic (division by zero) there, before any upsert call, progress event or
completion signal. -/
theorem c2_batch_size_zero (fail : Nat → Bool) (pts : List Point) :
    runUpsert fail pts 0 = ⟨[], [], .crashed⟩ := rfl

/-- Claim C2 counterexample: with batch size 0 the run does not fail with an
error value before the partitioning computation as claimed; the outcome is a
crash (the modelled panic inside the division at line 133), which is neither
the clean outcome nor any error outcome. -/
theorem c2_counterexample :
    runUpsert (fun _ => true) [mkPt "a"] 0 = ⟨[], [], .crashed⟩ ∧
    (RunResult.crashed == RunResult.ok) = false ∧
    (RunResult.crashed == RunResult.upsertError 0) = false ∧
    RunResult.isUpsertError RunResult.crashed = false :=
  ⟨rfl, rfl, rfl, rfl⟩

/-- Claim C3, amended: the upsert failure context carries the 0-based
batch_idx of the failing call (line 150), one less than the 1-based index
used by progress events: when the call with 0-based index j fails first, the
error carries j while the progress events emitted so far are exactly
1, ..., j. -/
theorem c3_upsert_error_index (pts : List Point) (B j : Nat) (fail : Nat → Bool)
    (hB : 0 < B)
    (hp : ∀ p ∈ pts, (Payload.tryFrom p.payload).isSome = true)
    (hj : j < (chunks B pts).length)
    (hlt : ∀ i, i < j → fail i = false) (hfj : fail j = true) :
    (runUpsert fail pts B).result = .upsertError j ∧
    (runUpsert fail pts B).events.filterMap progressIdxTotal
      = (List.range j).map (fun k => (k + 1, total_batches pts.length B)) := by
  have hB0 : B ≠ 0 := Nat.pos_iff_ne_zero.mp hB
  have hb : ∀ c ∈ chunks B pts, (buildBatch c).isSome = true :=
    fun c hc => buildBatch_isSome fun p hpc => hp p (mem_chunks_mem hB hc hpc)
  have hlt' : ∀ i, i < j → fail (0 + i) = false := by
    intro i hi
    rw [Nat.zero_add]
    exact hlt i hi
  have hfj' : fail (0 + j) = true := by
    rw [Nat.zero_add]
    exact hfj
  have hrun : runUpsert fail pts B
      = ⟨successEvents (total_batches pts.length B) ((chunks B pts).take j) 0,
         (List.range (j + 1)).map (fun k => 0 + k), .upsertError (0 + j)⟩ := by
    unfold runUpsert
    rw [if_neg hB0, loopGo_fail fail _ (chunks B pts) 0 j hb hj hlt' hfj']
  have hlen : ((chunks B pts).take j).length = j := by
    rw [List.length_take]
    omega
  constructor
  · rw [hrun]
    show RunResult.upsertError (0 + j) = RunResult.upsertError j
    rw [Nat.zero_add]
  · rw [hrun]
    show (successEvents (total_batches pts.length B) ((chunks B pts).take j) 0).filterMap
        progressIdxTotal = _
    rw [successEvents_filterMap_idx, hlen]
    have he : (fun k => (0 + k + 1, total_batches pts.length B))
        = (fun k => (k + 1, total_batches pts.length B)) :=
      funext fun k => congrArg (·, total_batches pts.length B) (by omega)
    rw [he]

/-- Claim C3 counterexample: four points, batch size 2, the second upsert
call fails. The progress event for batch 1 is emitted and the error carries
batch index 1 (the 0-based batch_idx), not 2 as the claim states. -/
theorem c3_counterexample :
    runUpsert failW pts4 2 = ⟨[Event.progress 1 2 2], [0, 1], .upsertError 1⟩ ∧
    (RunResult.upsertError 1 == RunResult.upsertError 2) = false := by
  refine ⟨by decide, rfl⟩

/-- Claim C3 amended witness: three points, batch size 1, second call fails;
the error carries 0-based index 1 and exactly one progress event (batch 1)
was emitted. -/
theorem c3_upsert_error_index_witness :
    (runUpsert failW pts3 1).result = .upsertError 1 ∧
    (runUpsert failW pts3 1).events.filterMap progressIdxTotal
      = (List.range 1).map (fun k => (k + 1, total_batches pts3.length 1)) :=
  c3_upsert_error_index pts3 1 1 failW (by decide) (by decide) (by decide)
    (fun i hi => by
      have h0 : i = 0 := by omega
      subst h0
      rfl) rfl

/-- Claim C4: when the upsert call with 0-based index j (1-based batch
index j+1) fails first, no progress event for that batch or any later batch
is emitted (all emitted progress indices are at most j), no upsert call
after it is issued (the issued calls are exactly 0..j), the terminal done
signal is not emitted, and the run terminates with the upsert error. -/
theorem c4_failure_short_circuit (pts : List Point) (B j : Nat) (fail : Nat → Bool)
    (hB : 0 < B)
    (hp : ∀ p ∈ pts, (Payload.tryFrom p.payload).isSome = true)
    (hj : j < (chunks B pts).length)
    (hlt : ∀ i, i < j → fail i = false) (hfj : fail j = true) :
    (runUpsert fail pts B).result = .upsertError j ∧
    (∀ b t k, Event.progress b t k ∈ (runUpsert fail pts B).events → b ≤ j) ∧
    (∀ m, Event.done m ∉ (runUpsert fail pts B).events) ∧
    (runUpsert fail pts B).calls = List.range (j + 1) := by
  have hB0 : B ≠ 0 := Nat.pos_iff_ne_zero.mp hB
  have hb : ∀ c ∈ chunks B pts, (buildBatch c).isSome = true :=
    fun c hc => buildBatch_isSome fun p hpc => hp p (mem_chunks_mem hB hc hpc)
  have hlt' : ∀ i, i < j → fail (0 + i) = false := by
    intro i hi
    rw [Nat.zero_add]
    exact hlt i hi
  have hfj' : fail (0 + j) = true := by
    rw [Nat.zero_add]
    exact hfj
  have hrun : runUpsert fail pts B
      = ⟨successEvents (total_batches pts.length B) ((chunks B pts).take j) 0,
         (List.range (j + 1)).map (fun k => 0 + k), .upsertError (0 + j)⟩ := by
    unfold runUpsert
    rw [if_neg hB0, loopGo_fail fail _ (chunks B pts) 0 j hb hj hlt' hfj']
  have hlen : ((chunks B pts).take j).length = j := by
    rw [List.length_take]
    omega
  refine ⟨?_, ?_, ?_, ?_⟩
  · rw [hrun]
    show RunResult.upsertError (0 + j) = RunResult.upsertError j
    rw [Nat.zero_add]
  · intro b t k hmem
    rw [hrun] at hmem
    have hm := successEvents_progress_mem (total_batches pts.length B)
      ((chunks B pts).take j) 0 b t k hmem
    omega
  · intro m hmem
    rw [hrun] at hmem
    exact successEvents_no_done (total_batches pts.length B) ((chunks B pts).take j) 0 m hmem
  · rw [hrun]
    show (List.range (j + 1)).map (fun k => 0 + k) = List.range (j + 1)
    have he : (fun k : Nat => 0 + k) = fun k : Nat => k := funext fun k => Nat.zero_add k
    rw [he]
    exact List.map_id _

/-- Claim C4 witness: five points, batch size 2, second call fails; the run
ends with the upsert error for 0-based index 1 and only calls 0 and 1 were
issued. -/
theorem c4_failure_short_circuit_witness :
    (runUpsert failW ptsW 2).result = .upsertError 1 ∧
    (runUpsert failW ptsW 2).calls = List.range 2 := by
  have h := c4_failure_short_circuit ptsW 2 1 failW (by decide) (by decide) (by decide)
    (fun i hi => by
      have h0 : i = 0 := by omega
      subst h0
      rfl) rfl
  exact ⟨h.1, h.2.2.2⟩

/-- Claim C5: on a fully successful run (every payload converts, no relevant
upsert call fails) with total batch count n, the progress events carry
exactly the batch indices 1, 2, ..., n in order with no gaps or repeats,
each paired with the same total n, and exactly n upsert calls (0-based
indices 0..n-1) are issued, one per progress event. -/
theorem c5_progress_events (pts : List Point) (B : Nat) (fail : Nat → Bool) (hB : 0 < B)
    (hp : ∀ p ∈ pts, (Payload.tryFrom p.payload).isSome = true)
    (hf : ∀ i, i < (chunks B pts).length → fail i = false) :
    (runUpsert fail pts B).result = .ok ∧
    (runUpsert fail pts B).events.filterMap progressIdxTotal
      = (List.range (total_batches pts.length B)).map
          (fun k => (k + 1, total_batches pts.length B)) ∧
    (runUpsert fail pts B).calls = List.range (total_batches pts.length B) := by
  have hB0 : B ≠ 0 := Nat.pos_iff_ne_zero.mp hB
  have hb : ∀ c ∈ chunks B pts, (buildBatch c).isSome = true :=
    fun c hc => buildBatch_isSome fun p hpc => hp p (mem_chunks_mem hB hc hpc)
  have hf' : ∀ i, i < (chunks B pts).length → fail (0 + i) = false := by
    intro i hi
    rw [Nat.zero_add]
    exact hf i hi
  have hrun : runUpsert fail pts B
      = ⟨successEvents (total_batches pts.length B) (chunks B pts) 0 ++ [.done pts.length],
         (List.range (chunks B pts).length).map (fun k => 0 + k), .ok⟩ := by
    unfold runUpsert
    rw [if_neg hB0, loopGo_success fail _ (chunks B pts) 0 hb hf']
  refine ⟨?_, ?_, ?_⟩
  · rw [hrun]
  · rw [hrun]
    show (successEvents (total_batches pts.length B) (chunks B pts) 0
        ++ [Event.done pts.length]).filterMap progressIdxTotal = _
    rw [List.filterMap_append, successEvents_filterMap_idx]
    show (List.range (chunks B pts).length).map
        (fun k => (0 + k + 1, total_batches pts.length B)) ++ [] = _
    rw [List.append_nil, chunks_length hB]
    have he : (fun k => (0 + k + 1, total_batches pts.length B))
        = (fun k => (k + 1, total_batches pts.length B)) :=
      funext fun k => congrArg (·, total_batches pts.length B) (by omega)
    rw [he]
  · rw [hrun]
    show (List.range (chunks B pts).length).map (fun k => 0 + k)
        = List.range (total_batches pts.length B)
    rw [chunks_length hB]
    have he : (fun k : Nat => 0 + k) = fun k : Nat => k := funext fun k => Nat.zero_add k
    rw [he]
    exact List.map_id _

/-- Claim C5 witness: five points, batch size 2, no failures; progress
pairs are (1,3), (2,3), (3,3) and calls are 0, 1, 2. -/
theorem c5_progress_events_witness :
    (runUpsert (fun _ => false) ptsW 2).result = .ok ∧
    (runUpsert (fun _ => false) ptsW 2).events.filterMap progressIdxTotal
      = (List.range (total_batches ptsW.length 2)).map
          (fun k => (k + 1, total_batches ptsW.length 2)) ∧
    (runUpsert (fun _ => false) ptsW 2).calls = List.range (total_batches ptsW.length 2) :=
  c5_progress_events ptsW 2 (fun _ => false) (by decide) (by decide) (fun _ _ => rfl)

/-- Claim C6: for every parser behavior and endpoint string, a string that
does not parse yields the InvalidEndpoint failure; a parsed URL with an
explicit port is returned unchanged (up to canonical formatting); a parsed
URL without an explicit port gets port 6334 with scheme, host and path
unchanged; and a URL to which a port cannot be applied yields the
InvalidEndpoint failure. -/
theorem c6_endpoint_normalization (parse : String → Option Url) (s : String) :
    (parse s = Option.none →
      ensure_grpc_port parse s = .error (.invalidEndpoint "Invalid URL")) ∧
    (∀ u p, parse s = some u → u.port = some p → ensure_grpc_port parse s = .ok u) ∧
    (∀ u h, parse s = some u → u.port = Option.none → u.host = some h →
      u.scheme ≠ "file" →
      ensure_grpc_port parse s = .ok ⟨u.scheme, u.host, some 6334, u.path⟩) ∧
    (∀ u, parse s = some u → u.port = Option.none →
      (u.host = Option.none ∨ u.scheme = "file") →
      ensure_grpc_port parse s = .error (.invalidEndpoint "Failed to set port")) := by
  refine ⟨?_, ?_, ?_, ?_⟩
  · intro h
    unfold ensure_grpc_port
    rw [h]
  · intro u p hu hp
    unfold ensure_grpc_port
    rw [hu]
    show (if u.port.isNone = true then
        match u.setPortOpt (some 6334) with
        | Option.none => Except.error (EndpointError.invalidEndpoint "Failed to set port")
        | some u2 => Except.ok u2
      else Except.ok u) = Except.ok u
    rw [hp]
    rfl
  · intro u h hu hp hh hs
    unfold ensure_grpc_port
    rw [hu]
    show (if u.port.isNone = true then
        match u.setPortOpt (some 6334) with
        | Option.none => Except.error (EndpointError.invalidEndpoint "Failed to set port")
        | some u2 => Except.ok u2
      else Except.ok u) = _
    rw [hp]
    show (match Url.setPortOpt u (some 6334) with
      | Option.none => Except.error (EndpointError.invalidEndpoint "Failed to set port")
      | some u2 => Except.ok u2) = _
    unfold Url.setPortOpt
    rw [if_neg ?_]
    intro hc
    rcases hc with hc | hc
    · rw [hh] at hc
      exact Option.noConfusion hc
    · exact hs hc
  · intro u hu hp hcond
    unfold ensure_grpc_port
    rw [hu]
    show (if u.port.isNone = true then
        match u.setPortOpt (some 6334) with
        | Option.none => Except.error (EndpointError.invalidEndpoint "Failed to set port")
        | some u2 => Except.ok u2
      else Except.ok u) = _
    rw [hp]
    show (match Url.setPortOpt u (some 6334) with
      | Option.none => Except.error (EndpointError.invalidEndpoint "Failed to set port")
      | some u2 => Except.ok u2) = _
    unfold Url.setPortOpt
    rw [if_pos hcond]

/-- Claim C6 witness: a parser covering the three scenarios; a bare host
gets port 6334, an explicit port 1234 is preserved, an unparseable string
fails with InvalidEndpoint. -/
theorem c6_endpoint_normalization_witness :
    ensure_grpc_port parseW "bad url" = .error (.invalidEndpoint "Invalid URL") ∧
    ensure_grpc_port parseW "https://example.com"
      = .ok ⟨"https", some "example.com", some 6334, "/"⟩ ∧
    ensure_grpc_port parseW "https://example.com:1234"
      = .ok ⟨"https", some "example.com", some 1234, "/"⟩ := by
  refine ⟨(c6_endpoint_normalization parseW "bad url").1 (by decide),
    (c6_endpoint_normalization parseW "https://example.com").2.2.1
      ⟨"https", some "example.com", Option.none, "/"⟩ "example.com"
      (by decide) rfl rfl (by decide),
    (c6_endpoint_normalization parseW "https://example.com:1234").2.1
      ⟨"https", some "example.com", some 1234, "/"⟩ 1234 (by decide) rfl⟩

/-- Claim C7: with batch size B at least 1 and an empty dataset, the total
batch count is 0, no upsert call is issued and no progress event emitted
(whatever the store collaborator would answer), and the terminal done signal
still fires reporting 0 points. -/
theorem c7_empty_dataset (B : Nat) (fail : Nat → Bool) (hB : 0 < B) :
    total_batches 0 B = 0 ∧ runUpsert fail [] B = ⟨[Event.done 0], [], .ok⟩ := by
  have hB0 : B ≠ 0 := Nat.pos_iff_ne_zero.mp hB
  constructor
  · show (0 + B - 1) / B = 0
    rw [Nat.zero_add]
    exact Nat.div_eq_of_lt (by omega)
  · unfold runUpsert
    rw [if_neg hB0]
    rfl

/-- Claim C7 witness: empty dataset with batch size 3 against a store that
would fail every upsert; the done signal still fires with 0 points and no
call is made. -/
theorem c7_empty_dataset_witness :
    total_batches 0 3 = 0 ∧ runUpsert (fun _ => true) [] 3 = ⟨[Event.done 0], [], .ok⟩ :=
  c7_empty_dataset 3 (fun _ => true) (by decide)

/-- Claim C8: every recognized compression mode yields a valid client
configuration (the connector never fails for a recognized mode): zstd and
lz4 configure the client exactly as gzip does and additionally emit one
warning identifying the substitution, gzip applies gzip with no warning, and
none applies no compression with no warning. -/
theorem c8_compression_substitution :
    (configureCompression .zstd).compression = (configureCompression .gzip).compression ∧
    (configureCompression .lz4).compression = (configureCompression .gzip).compression ∧
    (configureCompression .zstd).warnings
      = ["Warning: Zstd compression not available, using Gzip"] ∧
    (configureCompression .lz4).warnings
      = ["Warning: LZ4 compression not directly supported, using Gzip"] ∧
    (configureCompression .gzip).compression = some CompressionEncoding.gzip ∧
    (configureCompression .gzip).warnings = [] ∧
    (configureCompression .none).compression = Option.none ∧
    (configureCompression .none).warnings = [] ∧
    (∀ c : CompressionArg, (configureCompression c).compression = Option.none ∨
      (configureCompression c).compression = some CompressionEncoding.gzip) := by
  refine ⟨rfl, rfl, rfl, rfl, rfl, rfl, rfl, rfl, ?_⟩
  intro c
  cases c with
  | none => exact Or.inl rfl
  | gzip => exact Or.inr rfl
  | zstd => exact Or.inr rfl
  | lz4 => exact Or.inr rfl

/-- Claim C9: provisioning is idempotent. The existence check is by name
only; when the collection exists (whatever its stored dimensionality or
metric), no creation call is issued and the store is unchanged; when it is
absent, exactly one creation call with the declared dimensionality and
cosine distance is issued; and provisioning a second time after any first
run issues no creation call and changes nothing. -/
theorem c9_provisioning_idempotent (st : Store) (n : String) (dims : Nat) :
    (collection_exists st n = true ↔ ∃ c ∈ st.collections, c.name = n) ∧
    (collection_exists st n = true → provision st n dims = (st, [])) ∧
    (collection_exists st n = false →
      provision st n dims
        = (⟨⟨n, dims, .cosine⟩ :: st.collections⟩, [⟨n, dims, .cosine⟩])) ∧
    provision (provision st n dims).1 n dims = ((provision st n dims).1, []) := by
  have hex : collection_exists st n = true ↔ ∃ c ∈ st.collections, c.name = n := by
    simp [collection_exists, List.any_eq_true]
  have hpos : collection_exists st n = true → provision st n dims = (st, []) := by
    intro h
    unfold provision
    rw [h]
    rfl
  have hneg : collection_exists st n = false →
      provision st n dims
        = (⟨⟨n, dims, .cosine⟩ :: st.collections⟩, [⟨n, dims, .cosine⟩]) := by
    intro h
    unfold provision
    rw [h]
    rfl
  refine ⟨hex, hpos, hneg, ?_⟩
  by_cases h : collection_exists st n = true
  · rw [hpos h]
    show provision st n dims = (st, [])
    exact hpos h
  · rw [Bool.not_eq_true] at h
    rw [hneg h]
    show provision (⟨⟨n, dims, .cosine⟩ :: st.collections⟩ : Store) n dims
        = (⟨⟨n, dims, .cosine⟩ :: st.collections⟩, [])
    have hex2 : collection_exists (⟨⟨n, dims, .cosine⟩ :: st.collections⟩ : Store) n = true := by
      show (((⟨n, dims, .cosine⟩ : Collection) :: st.collections).any fun c => c.name == n) = true
      rw [List.any_cons]
      show ((n == n) || st.collections.any fun c => c.name == n) = true
      rw [beq_self_eq_true]
      exact Bool.true_or _
    unfold provision
    rw [hex2]
    rfl

/-- Claim C9 witness: a store already holding the documents collection keeps
it untouched with no creation call, and on an empty store one creation call
with dimensionality 768 and cosine distance is issued, after which a second
provisioning run changes nothing. -/
theorem c9_provisioning_idempotent_witness :
    provision storeW "documents" 768 = (storeW, []) ∧
    provision storeEmpty "documents" 768
      = (⟨[⟨"documents", 768, .cosine⟩]⟩, [⟨"documents", 768, .cosine⟩]) ∧
    provision (provision storeEmpty "documents" 768).1 "documents" 768
      = ((provision storeEmpty "documents" 768).1, []) :=
  ⟨(c9_provisioning_idempotent storeW "documents" 768).2.1 (by decide),
   (c9_provisioning_idempotent storeEmpty "documents" 768).2.2.1 (by decide),
   (c9_provisioning_idempotent storeEmpty "documents" 768).2.2.2⟩

/-- Claim C10: the Input Loader accepts a document whose point carries a
non-object payload (a bare string), and on that input the batch-construction
step aborts the process (the unchecked unwrap of the payload conversion at
line 142 panics): the run crashes before any upsert call or progress event,
and the terminal outcome is neither the clean completion nor any declared
error kind such as the upsert error. -/
theorem c10_payload_unwrap_panics :
    parseInput badPayloadDoc = some ⟨[badPayloadPoint]⟩ ∧
    runUpsert (fun _ => false) [badPayloadPoint] 100 = ⟨[], [], .crashed⟩ ∧
    RunResult.isUpsertError RunResult.crashed = false ∧
    (RunResult.crashed == RunResult.ok) = false :=
  ⟨rfl, rfl, rfl, rfl⟩

end QdrantUp
